import Mathlib

/-!
# Verification of the `natural_slice` combinatorial coders

A shallow embedding, in Lean 4, of the three encode/decode pairs of the
`natural_slice` Rust crate:

* `src/property.rs` — mixed-radix property coding with parity-based digit
  omission (`encode_property` / `decode_property`);
* `src/position.rs` — combinatorial-number-system position coding
  (`encode_position` / `decode_position`);
* `src/permutation.rs` — factorial-number-system (Lehmer code) permutation
  coding (`encode_permutation` / `decode_permutation`).

Machine integers (`usize`) are modelled as `Nat`: all values involved are
bounded well below `2^64` in the claims considered, and the explicit
width-conversion at the API boundary (`TryFrom` / `TryInto`) is modelled
separately where a claim refers to it (`encode_permutationW`).

A Rust panic (`unwrap`, `expect`, or a `usize` underflow with overflow
checks on) is modelled as `Option.none`; a function that cannot panic is
modelled as a total function.
-/

namespace NaturalSlice

/-! ## Property coder (`src/property.rs`) -/

/-- Little-endian digits of `n` in base `base`, by repeated division, exactly
as the `radix_fmt` formatter's loop computes them. The first argument is
structural fuel; `n` itself is always enough fuel since `n / base < n` at each
step (for the bases `2 ≤ base ≤ 36` at which the formatter is ever invoked). -/
def toDigitsAux (base : Nat) : Nat → Nat → List Nat
  | 0, _ => []
  | fuel + 1, n => if n = 0 then [] else n % base :: toDigitsAux base fuel (n / base)

/-- Digits of `n` in base `base`, most significant first, as rendered by
`radix_fmt::radix(n, base)`: `0` renders as the single digit `0`, any other
number renders with no leading zeros. -/
def toDigitsBase (base n : Nat) : List Nat :=
  if n = 0 then [0] else (toDigitsAux base n n).reverse

/-- Embedding of `encode_property` (`src/property.rs`, lines 12–31), with the
element type generalised over an arbitrary `α` and the property mapping
returning `Nat` digits.

The Rust function maps the first `n - 1` elements to base-`base` digit
characters via `char::from_digit` (which panics for `base > 36` or a digit
`≥ base`), then parses the resulting string with `usize::from_str_radix`
(which panics for `base < 2` or `base > 36`, and returns an error — hit by an
`expect` — on the empty string, i.e. when `n ≤ 1`). For an empty slice,
`n - 1` underflows. All of these panics are modelled as `none`; in the
non-panicking case the parsed value is the standard positional fold of the
digit list. -/
def encode_property_usize {α : Type} (data : List α) (property_mapping : α → Nat)
    (base : Nat) : Option Nat :=
  match data.length with
  | 0 => none
  | n + 1 =>
    let digits := (data.take n).map property_mapping
    if 2 ≤ base ∧ base ≤ 36 ∧ digits ≠ [] ∧ (∀ d ∈ digits, d < base) then
      some (digits.foldl (fun acc d => acc * base + d) 0)
    else none

/-- Embedding of `decode_property` (`src/property.rs`, lines 38–61), at the
`usize` level (the `TryInto` on the input code is the identity here).

The Rust function renders `property` in base `base` via `radix_fmt::radix`
(which asserts `2 ≤ base ≤ 36`), computes the last digit as
`base - (sum of rendered digits % base)` — note: with NO outer `% base` —
then left-pads with zeros using `len - 1 - bits_string.len()`, a `usize`
subtraction that underflows (panics) whenever `len < bits_string.len() + 1`,
in particular for `len = 0`. Panics are modelled as `none`. -/
def decode_property_usize (property base len : Nat) : Option (List Nat) :=
  if 2 ≤ base ∧ base ≤ 36 then
    let bits := toDigitsBase base property
    if bits.length + 1 ≤ len then
      let last_digit := base - bits.sum % base
      some (List.replicate (len - 1 - bits.length) 0 ++ bits ++ [last_digit])
    else none
  else none

/-- The test fixture of `src/property.rs`: the property mapping
`3,4 ↦ 2; 7,0 ↦ 1; 6,5,2,1 ↦ 0`. -/
def fixtureMapping (x : Nat) : Nat :=
  if x = 3 ∨ x = 4 then 2 else if x = 7 ∨ x = 0 then 1 else 0

example : encode_property_usize [3, 6, 5, 7, 0, 2, 1, 4] fixtureMapping 3 = some 1494 := by
  decide

example : decode_property_usize 1494 3 8 = some [2, 0, 0, 1, 1, 0, 0, 2] := by
  decide

/-- The positional fold of a list of digits, all below `base`, starting from
accumulator `acc`, is below `(acc + 1) * base ^ length`. -/
lemma foldl_mul_add_lt (base : Nat) :
    ∀ (ds : List Nat) (acc : Nat), 1 ≤ base → (∀ d ∈ ds, d < base) →
      ds.foldl (fun a d => a * base + d) acc < (acc + 1) * base ^ ds.length := by
  intro ds
  induction ds with
  | nil =>
    intro acc _ _
    simp only [List.foldl_nil, List.length_nil, pow_zero, mul_one]
    exact Nat.lt_succ_self acc
  | cons d ds ih =>
    intro acc hb hd
    have hdb : d < base := hd d (List.mem_cons_self d ds)
    have hrec := ih (acc * base + d) hb (fun x hx => hd x (List.mem_cons_of_mem d hx))
    have h2 : acc * base + d + 1 ≤ (acc + 1) * base := by
      calc acc * base + d + 1 ≤ acc * base + base := by omega
        _ = (acc + 1) * base := by ring
    calc (d :: ds).foldl (fun a b => a * base + b) acc
        = ds.foldl (fun a b => a * base + b) (acc * base + d) := rfl
      _ < (acc * base + d + 1) * base ^ ds.length := hrec
      _ ≤ ((acc + 1) * base) * base ^ ds.length := Nat.mul_le_mul_right _ h2
      _ = (acc + 1) * base ^ (d :: ds).length := by
          simp only [List.length_cons, pow_succ]; ring

/-- C8: whenever `encode_property` returns an integer (before width
conversion), that integer lies in `[0, B^(N-1))`, where `N` is the length of
the data. (For `N ≤ 1` the function panics instead of returning a value.) -/
theorem encode_property_lt_pow {α : Type} (data : List α) (pm : α → Nat) (base : Nat)
    (v : Nat) (h : encode_property_usize data pm base = some v) :
    v < base ^ (data.length - 1) := by
  cases data with
  | nil => exact absurd h (by simp [encode_property_usize])
  | cons x rest =>
    have hh : encode_property_usize (x :: rest) pm base =
        (if 2 ≤ base ∧ base ≤ 36 ∧ ((x :: rest).take rest.length).map pm ≠ [] ∧
            (∀ d ∈ ((x :: rest).take rest.length).map pm, d < base) then
          some ((((x :: rest).take rest.length).map pm).foldl (fun acc d => acc * base + d) 0)
        else none) := rfl
    rw [hh] at h
    split at h
    · rename_i hcond
      obtain ⟨hb2, _, _, hdig⟩ := hcond
      have hv := (Option.some.inj h).symm
      have hlt := foldl_mul_add_lt base (((x :: rest).take rest.length).map pm) 0
        (by omega) hdig
      have hlen : (((x :: rest).take rest.length).map pm).length = rest.length := by
        simp [List.length_map, List.length_take]
      rw [hlen] at hlt
      subst hv
      simpa [List.length_cons, Nat.succ_sub_one] using hlt
    · exact absurd h (by simp)

/-- Witness for C8 at the crate's own fixture: the sequence
`[3,6,5,7,0,2,1,4]` with the ternary fixture mapping encodes to `1494`,
which is below `3^7`. -/
theorem encode_property_lt_pow_witness :
    encode_property_usize ([3, 6, 5, 7, 0, 2, 1, 4] : List Nat) fixtureMapping 3 = some 1494 ∧
    1494 < 3 ^ (([3, 6, 5, 7, 0, 2, 1, 4] : List Nat).length - 1) :=
  ⟨by decide, encode_property_lt_pow [3, 6, 5, 7, 0, 2, 1, 4] fixtureMapping 3 1494 (by decide)⟩

/-- C1 (code bug): the round trip FAILS when the stored digits sum to
`0 mod B`. The all-zero digit sequence of length 2 over base 3 satisfies the
parity precondition and encodes to `0`, but decoding `0` returns `[0, 3]` —
the last digit comes back as the base itself, not `0` — so
`decode_property(encode_property(seq, id, 3), 3, 2) ≠ map(id, seq)`. -/
theorem property_roundtrip_fails_on_zero_sum_prefix :
    encode_property_usize ([0, 0] : List Nat) (fun x => x) 3 = some 0 ∧
    decode_property_usize 0 3 2 = some [0, 3] ∧
    decode_property_usize 0 3 2 ≠ some (([0, 0] : List Nat).map (fun x => x)) := by
  refine ⟨by decide, by decide, by decide⟩

/-- C2 (code bug): `decode_property` computes the reconstructed final digit
as `B - (sum mod B)` with no outer `mod B`: decoding `0` in base 3 with
length 2 returns last digit `3`, while the claimed formula
`(B - (sum mod B)) mod B` gives `0`; the returned digit `3` is not in
`[0, 3)`. -/
theorem decode_property_last_digit_is_base :
    decode_property_usize 0 3 2 = some [0, 3] ∧
    (3 - (toDigitsBase 3 0).sum % 3) % 3 = 0 ∧
    ¬ (3 : Nat) < 3 := by
  refine ⟨by decide, by decide, by decide⟩

/-- C10: `encode_property` on an empty slice and `decode_property` with
`len = 0` both panic (a `usize` underflow in `n - 1` / `len - 1`, or the
`expect` on parsing an empty digit string), modelled as `none`; neither
returns a conversion error. -/
theorem property_coder_panics_on_empty :
    (∀ (pm : Nat → Nat) (base : Nat), encode_property_usize ([] : List Nat) pm base = none) ∧
    (∀ (code base : Nat), decode_property_usize code base 0 = none) := by
  refine ⟨fun pm base => rfl, fun code base => ?_⟩
  unfold decode_property_usize
  split
  · exact if_neg (Nat.not_succ_le_zero _)
  · rfl

/-! ## Position coder (`src/position.rs`) -/

/-- Embedding of the left-to-right scan inside `encode_position`
(`src/position.rs`, lines 10–33). The iterator chain keeps, per element, its
index and the running count of interesting elements seen so far (including
the current one); every element that is not interesting and has a nonzero
running count contributes `binomial(index, count - 1)` to the sum
(`num_integer::binomial` returns `0` when `k > n`, exactly like
`Nat.choose`). The index and running count appear here as explicit
parameters of the recursion. -/
def encodePosAux {α : Type} (is_interesting : α → Bool) :
    List α → Nat → Nat → Nat
  | [], _, _ => 0
  | x :: rest, index, count =>
    let itl := if is_interesting x then count + 1 else count
    (if is_interesting x = false ∧ itl ≠ 0 then Nat.choose index (itl - 1) else 0)
      + encodePosAux is_interesting rest (index + 1) itl

/-- Embedding of `encode_position` at the `usize` level (the value before the
`TryInto` width conversion); the scan starts at index `0` with no
interesting elements seen. -/
def encode_position_usize {α : Type} (data : List α) (is_interesting : α → Bool) : Nat :=
  encodePosAux is_interesting data 0 0

/-- Embedding of the descending-index loop inside `decode_position`
(`src/position.rs`, lines 39–65): positions are processed from `len - 1`
down to `0`; at each position the cutoff is
`binomial(index, interesting_to_the_left - 1)` (or `0` once all interesting
slots are placed); `position < cutoff` marks the position interesting,
otherwise `cutoff` is subtracted. The list built here is in descending index
order, exactly as the Rust `result` before its final `reverse`. -/
def decodePosAux : Nat → Nat → Nat → List Bool
  | 0, _, _ => []
  | len + 1, interesting_to_the_left, position =>
    let cutoff := if 0 < interesting_to_the_left then
        Nat.choose len (interesting_to_the_left - 1)
      else 0
    if position < cutoff then
      true :: decodePosAux len (interesting_to_the_left - 1) position
    else
      false :: decodePosAux len interesting_to_the_left (position - cutoff)

/-- Embedding of `decode_position` at the `usize` level: run the
descending-index loop, then reverse. -/
def decode_position_usize (position num_interesting len : Nat) : List Bool :=
  (decodePosAux len num_interesting position).reverse

/-- Splitting the encoding scan at the last element: the element `x` at index
`index + l.length` contributes nothing if interesting, and otherwise
contributes the binomial term for the total count of interesting elements to
its left (including the starting count `t`). -/
lemma encodePosAux_append {α : Type} (p : α → Bool) (l : List α) (x : α) :
    ∀ (index t : Nat), encodePosAux p (l ++ [x]) index t =
      encodePosAux p l index t +
        (if p x = false ∧ t + l.countP p ≠ 0 then
          Nat.choose (index + l.length) (t + l.countP p - 1)
        else 0) := by
  induction l with
  | nil =>
    intro index t
    cases hx : p x <;>
      simp [encodePosAux, hx, -List.countP_eq_zero]
  | cons y l ih =>
    intro index t
    rw [List.cons_append]
    cases hy : p y
    · simp only [encodePosAux, hy, Bool.false_eq_true, ite_false, if_false]
      rw [ih]
      simp only [List.countP_cons, hy, Bool.false_eq_true, ite_false, Nat.add_zero,
        List.length_cons]
      have harg : index + 1 + l.length = index + (l.length + 1) := by omega
      rw [harg, Nat.add_assoc]
    · simp only [encodePosAux, hy, ite_true, if_true, Bool.true_eq_false, false_and,
        if_false, Nat.zero_add]
      rw [ih]
      simp only [List.countP_cons, hy, ite_true, List.length_cons]
      have harg : index + 1 + l.length = index + (l.length + 1) := by omega
      have harg2 : t + 1 + l.countP p = t + (l.countP p + 1) := by omega
      rw [harg, harg2]

/-- Range bound for the position coder: the encoded value of a sequence of
length `N` with `K` interesting elements is below `C(N, K)`. -/
lemma encodePos_lt_choose {α : Type} (p : α → Bool) (l : List α) :
    encodePosAux p l 0 0 < Nat.choose l.length (l.countP p) := by
  induction l using List.reverseRecOn with
  | nil => simp [encodePosAux]
  | append_singleton l x ih =>
    have hlen : (l ++ [x]).length = l.length + 1 := by simp
    rw [encodePosAux_append, hlen]
    cases hx : p x
    · have hcount : List.countP p (l ++ [x]) = List.countP p l := by
        simp [List.countP_append, List.countP_cons, hx]
      rw [hcount]
      simp only [hx, Nat.zero_add]
      by_cases hk : List.countP p l = 0
      · rw [if_neg (by simp [hk])]
        rw [hk] at ih ⊢
        simpa using ih
      · rw [if_pos ⟨trivial, hk⟩]
        have hpascal := Nat.choose_succ_succ' l.length (List.countP p l - 1)
        rw [Nat.sub_add_cancel (Nat.pos_of_ne_zero hk)] at hpascal
        omega
    · have hcount : List.countP p (l ++ [x]) = List.countP p l + 1 := by
        simp [List.countP_append, List.countP_cons, hx]
      rw [hcount]
      rw [if_neg (by simp)]
      have hpascal := Nat.choose_succ_succ' l.length (List.countP p l)
      omega

/-- Decoding inverts encoding, digit by digit from the most significant
(largest index) end: running the descending-index decode loop on the encoded
value reproduces the reversed boolean image of the input. -/
lemma decodePos_encodePos {α : Type} (p : α → Bool) (l : List α) :
    decodePosAux l.length (l.countP p) (encodePosAux p l 0 0) = (l.map p).reverse := by
  induction l using List.reverseRecOn with
  | nil => simp [decodePosAux, encodePosAux]
  | append_singleton l x ih =>
    have hmap : ((l ++ [x]).map p).reverse = p x :: (l.map p).reverse := by simp
    have hlen : (l ++ [x]).length = l.length + 1 := by simp
    rw [hmap, encodePosAux_append, hlen]
    cases hx : p x
    · have hcount : List.countP p (l ++ [x]) = List.countP p l := by
        simp [List.countP_append, List.countP_cons, hx]
      rw [hcount]
      simp only [hx, Nat.zero_add]
      by_cases hk : List.countP p l = 0
      · rw [if_neg (by simp [hk]), Nat.add_zero, hk]
        rw [hk] at ih
        simp only [decodePosAux]
        rw [if_neg (Nat.lt_irrefl 0), if_neg (Nat.not_lt_zero _), Nat.sub_zero]
        exact congrArg (List.cons false) ih
      · rw [if_pos ⟨trivial, hk⟩]
        simp only [decodePosAux]
        rw [if_pos (Nat.pos_of_ne_zero hk), if_neg (by omega), Nat.add_sub_cancel]
        exact congrArg (List.cons false) ih
    · have hcount : List.countP p (l ++ [x]) = List.countP p l + 1 := by
        simp [List.countP_append, List.countP_cons, hx]
      rw [hcount]
      rw [if_neg (by simp)]
      simp only [Nat.add_zero, decodePosAux]
      rw [if_pos (Nat.succ_pos _), Nat.add_sub_cancel,
        if_pos (encodePos_lt_choose p l)]
      exact congrArg (List.cons true) ih

/-- C6: for every sequence and predicate, decoding the encoding with
`K = ` the number of elements satisfying the predicate and `N = ` the length
round-trips to the boolean image of the sequence under the predicate:
`decode_position(encode_position(seq, pred), K, N) = map(pred, seq)`. -/
theorem decode_encode_position_roundtrip {α : Type} (data : List α)
    (is_interesting : α → Bool) :
    decode_position_usize (encode_position_usize data is_interesting)
      (data.countP is_interesting) data.length = data.map is_interesting := by
  unfold decode_position_usize encode_position_usize
  rw [decodePos_encodePos, List.reverse_reverse]

/-- C7: the concrete 12-element fixtures of `src/position.rs` with four
interesting (nonzero) elements: the arrangement with the interesting
elements in the last four positions encodes to `0`, the one with them in the
first four positions encodes to `494`. -/
theorem encode_position_fixtures :
    encode_position_usize ([0, 0, 0, 0, 0, 0, 0, 0, 1, 1, 1, 1] : List Nat)
      (fun x => x != 0) = 0 ∧
    encode_position_usize ([1, 1, 1, 1, 0, 0, 0, 0, 0, 0, 0, 0] : List Nat)
      (fun x => x != 0) = 494 := by
  refine ⟨by decide, by decide⟩

/-! ## Permutation coder (`src/permutation.rs`) -/

variable {α : Type} [LinearOrder α]

/-- Embedding of `PermutationCounts::calculate_count` (`src/permutation.rs`,
lines 18–22): the number of items positioned to the left of `pos` in `data`
that compare strictly less than `x`. -/
def calculate_count (pos : Nat) (x : α) (data : List α) : Nat :=
  ((data.take pos).filter (fun y => decide (y < x))).length

/-- Embedding of the `counts` construction of `PermutationCounts::from_data`
(`src/permutation.rs`, lines 35–43): `data.iter().enumerate()` mapped through
`calculate_count`; the enumeration index is the explicit parameter, and
`full` stays the whole slice. -/
def countsFromDataAux (full : List α) : List α → Nat → List Nat
  | [], _ => []
  | x :: rest, index => calculate_count index x full :: countsFromDataAux full rest (index + 1)

/-- The count vector of a slice (`PermutationCounts::from_data`). -/
def countsFromData (data : List α) : List Nat :=
  countsFromDataAux data data 0

/-- Embedding of `PermutationCounts::encode` with `encode_count`
(`src/permutation.rs`, lines 23–34): `Σ counts[i] * i!` over the enumerated
count vector; the enumeration index is the explicit parameter. -/
def encodeCountsAux : List Nat → Nat → Nat
  | [], _ => 0
  | c :: rest, index => c * Nat.factorial index + encodeCountsAux rest (index + 1)

/-- The permutation number of a count vector (`PermutationCounts::encode`). -/
def encodeCounts (counts : List Nat) : Nat :=
  encodeCountsAux counts 0

/-- Embedding of `encode_permutation` (`src/permutation.rs`, lines 92–96) at
the `usize` level: the value before the `TryInto` width conversion. -/
def encode_permutation_usize (data : List α) : Nat :=
  encodeCounts (countsFromData data)

/-- Embedding of `encode_permutation` including the `TryFrom<usize>` boundary
conversion into a `w`-bit unsigned output type: the conversion succeeds, with
the exact value, iff the value is below `2 ^ w`, and fails with a conversion
error (`none`) otherwise — it never wraps or truncates. -/
def encode_permutationW (w : Nat) (data : List α) : Option Nat :=
  let v := encode_permutation_usize data
  if v < 2 ^ w then some v else none

/-- The largest value representable in `usize` on the 64-bit reference
target. -/
def usizeMax : Nat := 2 ^ 64 - 1

/-- Embedding of the `factorial` crate's `Factorial::factorial` as called by
`PermutationCounts::decode_count` (`src/permutation.rs`, line 45): it is
`checked_factorial().expect(...)`, so it panics — in every build mode — as
soon as `index!` overflows the 64-bit `usize`; the panic is `none`. On the
64-bit target, `20!` fits and `21!` does not. -/
def checkedFactorial (index : Nat) : Option Nat :=
  if Nat.factorial index ≤ usizeMax then some (Nat.factorial index) else none

/-- Embedding of `PermutationCounts::decode` with `decode_count`
(`src/permutation.rs`, lines 44–58): for `index` in `(0..n).rev()`, the count
is `perm / index!` and `perm` becomes `perm % index!`, where `index!` is the
`factorial` crate's checked factorial (panicking, hence `none`, on
overflow). This recursion produces the counts in descending index order,
exactly the Rust `counts` before its final `reverse`. -/
def decodeCountsAux : Nat → Nat → Option (List Nat)
  | 0, _ => some []
  | index + 1, perm =>
    match checkedFactorial index with
    | none => none
    | some f => (decodeCountsAux index (perm % f)).map (fun rest => perm / f :: rest)

/-- The count vector decoded from a permutation number
(`PermutationCounts::decode`): the descending-order list, reversed; `none`
when a factorial overflowed. -/
def decodeCounts (perm n : Nat) : Option (List Nat) :=
  (decodeCountsAux n perm).map List.reverse

/-- Embedding of `PermutationCounts::nth_smallest` (`src/permutation.rs`,
lines 59–66): the `n`-th entry of `increasing` with the already-placed
elements filtered out; the `.nth(n).unwrap()` panic is `none`. -/
def nth_smallest (n : Nat) (increasing permuted : List α) : Option α :=
  (increasing.filter (fun x => decide (x ∉ permuted)))[n]?

/-- Embedding of the `for count in self.counts.iter().rev()` loop of
`PermutationCounts::apply` (`src/permutation.rs`, lines 67–76): the loop
takes the reversed count list and pushes one `nth_smallest` pick per count
onto `permuted`, propagating the `unwrap` panic as `none`. -/
def applyCountsLoop (increasing : List α) : List Nat → List α → Option (List α)
  | [], permuted => some permuted
  | c :: rest, permuted =>
    match nth_smallest c increasing permuted with
    | none => none
    | some x => applyCountsLoop increasing rest (permuted ++ [x])

/-- Embedding of `PermutationCounts::apply`: sort a copy of the reference
data ascendingly, run the loop over the reversed counts, and reverse the
result. -/
def applyCounts (counts : List Nat) (data : List α) : Option (List α) :=
  (applyCountsLoop (List.insertionSort (· ≤ ·) data) counts.reverse []).map List.reverse

/-- Embedding of `decode_permutation` (`src/permutation.rs`, lines 105–110)
at the `usize` level: decode the count vector (propagating the factorial
overflow panic), then apply it to the reference data. -/
def decode_permutation (perm : Nat) (data : List α) : Option (List α) :=
  match decodeCounts perm data.length with
  | none => none
  | some counts => applyCounts counts data

example : encode_permutation_usize ([3, 6, 5, 7, 0, 2, 1, 4] : List Nat) = 21021 := by
  decide

example : decode_permutation 21021 ([7, 6, 5, 4, 3, 2, 1, 0] : List Nat) =
    some [3, 6, 5, 7, 0, 2, 1, 4] := by
  decide

example : decode_permutation 1 ([0] : List Nat) = none := by
  decide

/-- The count at position `pos` never exceeds `pos`: it is the length of a
sublist of the `pos` elements to the left. -/
lemma calculate_count_le (pos : Nat) (x : α) (data : List α) :
    calculate_count pos x data ≤ pos := by
  unfold calculate_count
  calc ((data.take pos).filter fun y => decide (y < x)).length
      ≤ (data.take pos).length := (List.filter_sublist _).length_le
    _ ≤ pos := by rw [List.length_take]; exact Nat.min_le_left _ _

lemma countsFromDataAux_length (full : List α) :
    ∀ (l : List α) (i : Nat), (countsFromDataAux full l i).length = l.length
  | [], _ => rfl
  | x :: rest, i => by
    simp [countsFromDataAux, countsFromDataAux_length full rest (i + 1)]

lemma countsFromDataAux_getElem? (full : List α) :
    ∀ (l : List α) (i j : Nat),
      (countsFromDataAux full l i)[j]? =
        (l[j]?).map (fun x => calculate_count (i + j) x full)
  | [], i, j => by simp [countsFromDataAux]
  | x :: rest, i, 0 => by simp [countsFromDataAux]
  | x :: rest, i, j + 1 => by
    simp only [countsFromDataAux, List.getElem?_cons_succ]
    have harg : i + 1 + j = i + (j + 1) := by omega
    rw [countsFromDataAux_getElem? full rest (i + 1) j, harg]

lemma countsFromData_length (data : List α) :
    (countsFromData data).length = data.length :=
  countsFromDataAux_length data data 0

lemma countsFromData_getElem (data : List α) (j : Nat) (hj : j < data.length)
    (hj2 : j < (countsFromData data).length) :
    (countsFromData data)[j] = calculate_count j data[j] data := by
  have h := countsFromDataAux_getElem? data data 0 j
  rw [show countsFromDataAux data data 0 = countsFromData data from rfl] at h
  rw [List.getElem?_eq_getElem hj2, List.getElem?_eq_getElem hj] at h
  rw [Nat.zero_add] at h
  simpa using h

lemma countsFromData_bound (data : List α) (j : Nat)
    (hj2 : j < (countsFromData data).length) :
    (countsFromData data)[j] ≤ j := by
  have hj : j < data.length := by rw [← countsFromData_length data]; exact hj2
  rw [countsFromData_getElem data j hj hj2]
  exact calculate_count_le j _ data

lemma encodeCountsAux_append :
    ∀ (cs : List Nat) (c i : Nat),
      encodeCountsAux (cs ++ [c]) i = encodeCountsAux cs i + c * Nat.factorial (i + cs.length)
  | [], c, i => by simp [encodeCountsAux]
  | d :: cs, c, i => by
    simp only [List.cons_append, encodeCountsAux, List.length_cons, List.append_eq]
    rw [encodeCountsAux_append cs c (i + 1)]
    have harg : i + 1 + cs.length = i + (cs.length + 1) := by omega
    rw [harg]
    omega

/-- Splitting `PermutationCounts::encode` at the last count. -/
lemma encodeCounts_append (cs : List Nat) (c : Nat) :
    encodeCounts (cs ++ [c]) = encodeCounts cs + c * Nat.factorial cs.length := by
  unfold encodeCounts
  rw [encodeCountsAux_append, Nat.zero_add]

/-- Extracting the per-index bounds of an extended count vector. -/
lemma countBound_of_append (cs : List Nat) (c : Nat)
    (h : ∀ j (hj : j < (cs ++ [c]).length), (cs ++ [c])[j] ≤ j) :
    c ≤ cs.length ∧ ∀ j (hj : j < cs.length), cs[j] ≤ j := by
  constructor
  · have hl := h cs.length (by simp)
    rwa [List.getElem_concat_length cs c cs.length rfl] at hl
  · intro j hj
    have hg := h j (by simp; omega)
    rwa [List.getElem_append_left hj] at hg

/-- Range bound on the factorial number system: if every count is at most its
index, the encoded value is below `(length)!`. -/
lemma encodeCounts_lt_factorial :
    ∀ (cs : List Nat), (∀ j (hj : j < cs.length), cs[j] ≤ j) →
      encodeCounts cs < Nat.factorial cs.length := by
  intro cs
  induction cs using List.reverseRecOn with
  | nil => intro _; decide
  | append_singleton cs c ih =>
    intro h
    obtain ⟨hc, hcs⟩ := countBound_of_append cs c h
    have hlen : (cs ++ [c]).length = cs.length + 1 := by simp
    rw [hlen, encodeCounts_append]
    have ih2 := ih hcs
    have hmul : c * Nat.factorial cs.length ≤ cs.length * Nat.factorial cs.length :=
      Nat.mul_le_mul_right _ hc
    have hfact : Nat.factorial (cs.length + 1) = (cs.length + 1) * Nat.factorial cs.length :=
      Nat.factorial_succ _
    have hsucc : (cs.length + 1) * Nat.factorial cs.length =
        cs.length * Nat.factorial cs.length + Nat.factorial cs.length := Nat.succ_mul _ _
    omega

/-- For indices small enough for the 64-bit target (the spec's
"20! fits in a u64"), the checked factorial never overflows. -/
lemma factorial_le_usizeMax {n : Nat} (h : n ≤ 20) : Nat.factorial n ≤ usizeMax := by
  calc Nat.factorial n ≤ Nat.factorial 20 := Nat.factorial_le h
    _ ≤ usizeMax := by decide

/-- Below index 21 the checked factorial returns the factorial itself. -/
lemma checkedFactorial_eq_some {n : Nat} (h : n ≤ 20) :
    checkedFactorial n = some (Nat.factorial n) :=
  if_pos (factorial_le_usizeMax h)

/-- Whenever the checked factorial returns a value, it is the factorial. -/
lemma checkedFactorial_some_eq {n f : Nat} (h : checkedFactorial n = some f) :
    f = Nat.factorial n := by
  unfold checkedFactorial at h
  split at h
  · exact (Option.some.inj h).symm
  · exact absurd h (by simp)

/-- Decoding inverts encoding on count vectors: dividing out the factorials
in descending index order recovers the counts (in descending order). The
length bound keeps every checked factorial below the `usize` overflow. -/
lemma decodeCountsAux_encodeCounts :
    ∀ (cs : List Nat), (∀ j (hj : j < cs.length), cs[j] ≤ j) → cs.length ≤ 21 →
      decodeCountsAux cs.length (encodeCounts cs) = some cs.reverse := by
  intro cs
  induction cs using List.reverseRecOn with
  | nil => intro _ _; rfl
  | append_singleton cs c ih =>
    intro h hlen21
    obtain ⟨hc, hcs⟩ := countBound_of_append cs c h
    have hlen : (cs ++ [c]).length = cs.length + 1 := by simp
    have hcs20 : cs.length ≤ 20 := by
      rw [hlen] at hlen21; omega
    rw [hlen, encodeCounts_append]
    have he : encodeCounts cs < Nat.factorial cs.length := encodeCounts_lt_factorial cs hcs
    have hpos : 0 < Nat.factorial cs.length := Nat.factorial_pos _
    simp only [decodeCountsAux, checkedFactorial_eq_some hcs20]
    have hdiv : (encodeCounts cs + c * Nat.factorial cs.length) / Nat.factorial cs.length
        = c := by
      rw [Nat.add_mul_div_right _ _ hpos, Nat.div_eq_of_lt he, Nat.zero_add]
    have hmod : (encodeCounts cs + c * Nat.factorial cs.length) % Nat.factorial cs.length
        = encodeCounts cs := by
      rw [Nat.add_mul_mod_self_right, Nat.mod_eq_of_lt he]
    rw [hmod, ih hcs (by omega)]
    simp only [Option.map_some, hdiv]
    simp

/-- `PermutationCounts::decode` is a left inverse of
`PermutationCounts::encode` on valid count vectors short enough that no
factorial overflows. -/
lemma decodeCounts_encodeCounts (cs : List Nat)
    (h : ∀ j (hj : j < cs.length), cs[j] ≤ j) (hlen : cs.length ≤ 21) :
    decodeCounts (encodeCounts cs) cs.length = some cs := by
  unfold decodeCounts
  rw [decodeCountsAux_encodeCounts cs h hlen]
  simp

/-- C5: the integer computed by `encode_permutation` (before width
conversion) is strictly below `N!` for every slice of length `N`. -/
theorem encode_permutation_lt_factorial (data : List α) :
    encode_permutation_usize data < Nat.factorial data.length := by
  unfold encode_permutation_usize
  have h := encodeCounts_lt_factorial (countsFromData data)
    (fun j hj => countsFromData_bound data j hj)
  rwa [countsFromData_length] at h

/-- C4: encoding the fixture permutation `[3,6,5,7,0,2,1,4]` into an 8-bit
output fails with a conversion error, since its code `21021` exceeds `255`;
and in general the width conversion fails exactly when the value does not
fit, never wrapping or truncating. -/
theorem encode_permutation_overflow_detected :
    encode_permutation_usize ([3, 6, 5, 7, 0, 2, 1, 4] : List Nat) = 21021 ∧
    encode_permutationW 8 ([3, 6, 5, 7, 0, 2, 1, 4] : List Nat) = none ∧
    (255 : Nat) < 21021 ∧
    ∀ (data : List Nat) (w : Nat),
      encode_permutationW w data = none ↔ 2 ^ w ≤ encode_permutation_usize data := by
  refine ⟨by decide, by decide, by decide, ?_⟩
  intro data w
  unfold encode_permutationW
  by_cases hv : encode_permutation_usize data < 2 ^ w
  · simp only [hv, if_true]
    simp
    omega
  · simp only [hv, if_false]
    simp
    omega

/-- A `Sorted (· ≤ ·)` list without duplicates is strictly sorted. -/
lemma sorted_lt_of_sorted_le_nodup {l : List α} (hs : l.Sorted (· ≤ ·)) (hn : l.Nodup) :
    l.Sorted (· < ·) :=
  (List.Pairwise.and hs hn).imp (fun h => lt_of_le_of_ne h.1 h.2)

/-- In a strictly sorted list, the entry whose index is the number of
elements smaller than a member `x` is `x` itself. -/
lemma sorted_getElem?_countP {l : List α} (hs : l.Sorted (· < ·)) {x : α} (hx : x ∈ l) :
    l[l.countP (fun y => decide (y < x))]? = some x := by
  induction l with
  | nil => cases hx
  | cons a t ih =>
    rw [List.sorted_cons] at hs
    rcases List.mem_cons.mp hx with rfl | hxt
    · have hcount : List.countP (fun y => decide (y < x)) (x :: t) = 0 := by
        rw [List.countP_eq_zero]
        intro y hy
        rcases List.mem_cons.mp hy with rfl | hyt
        · simp
        · simp only [decide_eq_true_eq]
          exact fun hlt => absurd hlt (lt_asymm (hs.1 y hyt))
      rw [hcount]
      simp
    · have ha : a < x := hs.1 x hxt
      have hcount : List.countP (fun y => decide (y < x)) (a :: t) =
          List.countP (fun y => decide (y < x)) t + 1 := by
        rw [List.countP_cons]
        simp [ha]
      rw [hcount, List.getElem?_cons_succ]
      exact ih hs.2 hxt

/-- Any list splits as prefix, element at `i`, and suffix after `i`. -/
lemma cons_drop_decomp (p : List α) (i : Nat) (hi : i < p.length) :
    p.take i ++ p[i] :: p.drop (i + 1) = p := by
  rw [← List.drop_eq_getElem_cons hi, List.take_append_drop]

/-- On a duplicate-free split list `A ++ x :: B`, counting the elements that
are below `x` and not in `B` is counting the elements of `A` below `x`. -/
lemma countP_filter_split (A B : List α) (x : α) (hnd : (A ++ x :: B).Nodup) :
    List.countP (fun y => decide (y < x) && decide (y ∉ B)) (A ++ x :: B) =
      List.countP (fun y => decide (y < x)) A := by
  have hdisj : A.Disjoint (x :: B) := (List.nodup_append.mp hnd).2.2
  rw [List.countP_append, List.countP_cons]
  have hxB : (decide (x < x) && decide (x ∉ B)) = false := by simp
  have hB : List.countP (fun y => decide (y < x) && decide (y ∉ B)) B = 0 := by
    rw [List.countP_eq_zero]
    intro y hy
    simp [hy]
  have hA : List.countP (fun y => decide (y < x) && decide (y ∉ B)) A =
      List.countP (fun y => decide (y < x)) A := by
    apply List.countP_congr
    intro y hy
    have hyB : y ∉ B := fun hmem => hdisj hy (List.mem_cons_of_mem x hmem)
    simp [hyB]
  rw [hA, hB, hxB]
  simp

/-- The combined predicate count over the whole slice equals
`calculate_count` at position `i`. -/
lemma countP_eq_calculate_count (p : List α) (i : Nat) (hi : i < p.length)
    (hnd : p.Nodup) :
    List.countP (fun y => decide (y < p[i]) && decide (y ∉ p.drop (i + 1))) p =
      calculate_count i p[i] p := by
  have hdec := cons_drop_decomp p i hi
  have hnd2 : (p.take i ++ p[i] :: p.drop (i + 1)).Nodup := by rw [hdec]; exact hnd
  have h1 : List.countP (fun y => decide (y < p[i]) && decide (y ∉ p.drop (i + 1))) p =
      List.countP (fun y => decide (y < p[i]) && decide (y ∉ p.drop (i + 1)))
        (p.take i ++ p[i] :: p.drop (i + 1)) :=
    congrArg _ hdec.symm
  rw [h1, countP_filter_split _ _ _ hnd2]
  unfold calculate_count
  rw [List.countP_eq_length_filter]

/-- The key step of `PermutationCounts::apply`: with the elements after
position `i` already placed, the `calculate_count i`-th smallest remaining
element of the sorted reference is exactly the element at position `i`. -/
lemma nth_smallest_step (p ref : List α) (hnd : p.Nodup) (href : ref.Perm p)
    (i : Nat) (hi : i < p.length) :
    nth_smallest (calculate_count i p[i] p) (List.insertionSort (· ≤ ·) ref)
      ((p.drop (i + 1)).reverse) = some p[i] := by
  have hincp : (List.insertionSort (· ≤ ·) ref).Perm p :=
    (List.perm_insertionSort _ ref).trans href
  have hincnd : (List.insertionSort (· ≤ ·) ref).Nodup := hincp.nodup_iff.mpr hnd
  have hslt : (List.insertionSort (· ≤ ·) ref).Sorted (· < ·) :=
    sorted_lt_of_sorted_le_nodup (List.sorted_insertionSort _ ref) hincnd
  unfold nth_smallest
  have hfil : (List.insertionSort (· ≤ ·) ref).filter
        (fun x => decide (x ∉ (p.drop (i + 1)).reverse)) =
      (List.insertionSort (· ≤ ·) ref).filter
        (fun x => decide (x ∉ p.drop (i + 1))) := by
    apply List.filter_congr
    intro y _
    simp [List.mem_reverse]
  rw [hfil]
  have hFslt : ((List.insertionSort (· ≤ ·) ref).filter
      (fun x => decide (x ∉ p.drop (i + 1)))).Sorted (· < ·) :=
    List.Pairwise.sublist (List.filter_sublist _) hslt
  have hnd2 : (p.take i ++ p[i] :: p.drop (i + 1)).Nodup := by
    rw [cons_drop_decomp p i hi]; exact hnd
  have hx_ndrop : p[i] ∉ p.drop (i + 1) :=
    (List.nodup_cons.mp (List.nodup_append.mp hnd2).2.1).1
  have hxF : p[i] ∈ (List.insertionSort (· ≤ ·) ref).filter
      (fun x => decide (x ∉ p.drop (i + 1))) :=
    List.mem_filter.mpr ⟨hincp.mem_iff.mpr (List.getElem_mem hi), by simpa using hx_ndrop⟩
  have hcnt : ((List.insertionSort (· ≤ ·) ref).filter
        (fun x => decide (x ∉ p.drop (i + 1)))).countP (fun y => decide (y < p[i])) =
      calculate_count i p[i] p := by
    rw [List.countP_filter, hincp.countP_eq, countP_eq_calculate_count p i hi hnd]
  have hgoal := sorted_getElem?_countP hFslt hxF
  rw [hcnt] at hgoal
  exact hgoal

/-- Unfolding one successful step of the `apply` loop. -/
lemma applyCountsLoop_cons_some (inc : List α) (c : Nat) (rest : List Nat)
    (permuted : List α) (x : α) (h : nth_smallest c inc permuted = some x) :
    applyCountsLoop inc (c :: rest) permuted = applyCountsLoop inc rest (permuted ++ [x]) := by
  simp only [applyCountsLoop, h]

/-- Loop invariant of `PermutationCounts::apply` run on the count vector of
`p` itself: after the counts above index `i` are consumed, the placed
elements are the reversed suffix of `p` from `i`, and the loop finishes with
the whole of `p` reversed. -/
lemma applyLoop_roundtrip (p ref : List α) (hnd : p.Nodup) (href : ref.Perm p) :
    ∀ i, i ≤ p.length →
      applyCountsLoop (List.insertionSort (· ≤ ·) ref)
        (((countsFromData p).take i).reverse) ((p.drop i).reverse) = some p.reverse := by
  intro i
  induction i with
  | zero => intro _; simp [applyCountsLoop]
  | succ i ih =>
    intro hle
    have hi : i < p.length := by omega
    have hlen : i < (countsFromData p).length := by
      rw [countsFromData_length]; exact hi
    have htake : ((countsFromData p).take (i + 1)).reverse =
        (countsFromData p)[i] :: ((countsFromData p).take i).reverse := by
      rw [List.take_succ, List.getElem?_eq_getElem hlen]
      simp [List.reverse_append]
    rw [htake, countsFromData_getElem p i hi hlen]
    rw [applyCountsLoop_cons_some _ _ _ _ p[i] (nth_smallest_step p ref hnd href i hi)]
    have hperm : (p.drop (i + 1)).reverse ++ [p[i]] = (p.drop i).reverse := by
      rw [List.drop_eq_getElem_cons hi, List.reverse_cons]
    rw [hperm]
    exact ih (by omega)

/-- C3: for every duplicate-free slice `data` (of length at most 12) and any
reordering `ref` of the same values, decoding the encoding against `ref`
reproduces `data`: `decode_permutation(encode_permutation(p), reference_set)
= p`. -/
theorem decode_encode_permutation_roundtrip (data ref : List α)
    (h1 : data.Nodup) (h2 : ref.Perm data) (h3 : data.length ≤ 12) :
    decode_permutation (encode_permutation_usize data) ref = some data := by
  unfold decode_permutation encode_permutation_usize
  have hcl : (countsFromData data).length = data.length := countsFromData_length data
  have hdc : decodeCounts (encodeCounts (countsFromData data)) ref.length =
      some (countsFromData data) := by
    rw [h2.length_eq, ← hcl]
    exact decodeCounts_encodeCounts _ (fun j hj => countsFromData_bound data j hj)
      (by rw [hcl]; omega)
  rw [hdc]
  show applyCounts (countsFromData data) ref = some data
  unfold applyCounts
  have h4 : (countsFromData data).reverse =
      ((countsFromData data).take data.length).reverse := by
    rw [← hcl, List.take_length]
  have h5 : ([] : List α) = (data.drop data.length).reverse := by
    rw [List.drop_length]; rfl
  rw [h4, h5, applyLoop_roundtrip data ref h1 h2 data.length (le_refl _)]
  simp

/-- Witness for C3 at the crate's fixture: `[3,6,5,7,0,2,1,4]` decoded from
its own encoding against the sorted reference set. -/
theorem decode_encode_permutation_roundtrip_witness :
    ([3, 6, 5, 7, 0, 2, 1, 4] : List Nat).Nodup ∧
    ([0, 1, 2, 3, 4, 5, 6, 7] : List Nat).Perm [3, 6, 5, 7, 0, 2, 1, 4] ∧
    decode_permutation (encode_permutation_usize ([3, 6, 5, 7, 0, 2, 1, 4] : List Nat))
      [0, 1, 2, 3, 4, 5, 6, 7] = some [3, 6, 5, 7, 0, 2, 1, 4] :=
  ⟨by decide, by decide,
    decode_encode_permutation_roundtrip [3, 6, 5, 7, 0, 2, 1, 4] [0, 1, 2, 3, 4, 5, 6, 7]
      (by decide) (by decide) (by decide)⟩

lemma decodeCountsAux_length :
    ∀ (n code : Nat) (cs : List Nat), decodeCountsAux n code = some cs → cs.length = n := by
  intro n
  induction n with
  | zero =>
    intro code cs h
    simp only [decodeCountsAux] at h
    rw [← Option.some.inj h]
    rfl
  | succ n ih =>
    intro code cs h
    simp only [decodeCountsAux] at h
    cases hcf : checkedFactorial n with
    | none =>
      rw [hcf] at h
      simp at h
    | some f =>
      simp only [hcf, Option.map_eq_some'] at h
      obtain ⟨rest, hrest, hcons⟩ := h
      subst hcons
      simp only [List.length_cons]
      rw [ih (code % f) rest hrest]

/-- Whenever decoding a count list succeeds, the checked factorial at every
index succeeded — so if it also never overflows, every level returns
`some`. -/
lemma decodeCountsAux_isSome :
    ∀ (n : Nat), n ≤ 21 → ∀ (code : Nat), ∃ cs, decodeCountsAux n code = some cs := by
  intro n
  induction n with
  | zero => intro _ code; exact ⟨[], rfl⟩
  | succ n ih =>
    intro hn code
    have hcf : checkedFactorial n = some (Nat.factorial n) :=
      checkedFactorial_eq_some (by omega)
    obtain ⟨rest, hrest⟩ := ih (by omega) (code % Nat.factorial n)
    exact ⟨code / Nat.factorial n :: rest, by simp [decodeCountsAux, hcf, hrest]⟩

/-- Every count decoded from a code below `n!` is small enough for its
index: the entry at position `k` of the descending-order count list (which
corresponds to index `n - 1 - k`) is at most `n - 1 - k`. -/
lemma decodeCountsAux_le :
    ∀ (n code : Nat) (cs : List Nat), code < Nat.factorial n →
      decodeCountsAux n code = some cs →
      ∀ k (hk : k < cs.length), cs[k] + k + 1 ≤ n := by
  intro n
  induction n with
  | zero =>
    intro code cs _ hdec k hk
    rw [decodeCountsAux_length 0 code cs hdec] at hk
    omega
  | succ n ih =>
    intro code cs h hdec k hk
    simp only [decodeCountsAux] at hdec
    cases hcf : checkedFactorial n with
    | none =>
      rw [hcf] at hdec
      simp at hdec
    | some f =>
      have hf : f = Nat.factorial n := checkedFactorial_some_eq hcf
      subst hf
      simp only [hcf, Option.map_eq_some'] at hdec
      obtain ⟨rest, hrest, hcons⟩ := hdec
      subst hcons
      cases k with
      | zero =>
        simp only [List.getElem_cons_zero]
        have hpos := Nat.factorial_pos n
        have hdiv : code / Nat.factorial n < n + 1 := by
          rw [Nat.div_lt_iff_lt_mul hpos]
          calc code < Nat.factorial (n + 1) := h
            _ = (n + 1) * Nat.factorial n := Nat.factorial_succ n
        omega
      | succ k =>
        simp only [List.getElem_cons_succ]
        have hmod : code % Nat.factorial n < Nat.factorial n :=
          Nat.mod_lt _ (Nat.factorial_pos n)
        have hk2 : k < rest.length := by
          simp only [List.length_cons] at hk
          omega
        have := ih (code % Nat.factorial n) rest hmod hrest k hk2
        omega

/-- The `apply` loop cannot hit the `unwrap` panic as long as every count
leaves enough unplaced elements: with `permuted` duplicate-free and drawn
from the duplicate-free `inc`, and each pending count small enough, the loop
returns `some`. -/
lemma applyCountsLoop_isSome (inc : List α) (hincnd : inc.Nodup) :
    ∀ (rcs : List Nat) (permuted : List α), permuted.Nodup →
      (∀ x ∈ permuted, x ∈ inc) →
      (∀ k (hk : k < rcs.length), rcs[k] + permuted.length + k < inc.length) →
      (applyCountsLoop inc rcs permuted).isSome := by
  intro rcs
  induction rcs with
  | nil => intro permuted _ _ _; rfl
  | cons c rest ih =>
    intro permuted hpnd hpsub hbound
    have hsplit := List.length_eq_length_filter_add
      (l := inc) (fun x => decide (x ∉ permuted))
    have hG : (inc.filter (fun x => !decide (x ∉ permuted))).length ≤ permuted.length := by
      apply List.Subperm.length_le
      apply List.Nodup.subperm ((List.filter_sublist _).nodup hincnd)
      intro y hy
      have hmem := List.mem_filter.mp hy
      simpa using hmem.2
    have hc := hbound 0 (by simp)
    simp only [List.getElem_cons_zero] at hc
    have hlt : c < (inc.filter (fun x => decide (x ∉ permuted))).length := by omega
    have hsome : (nth_smallest c inc permuted).isSome := by
      unfold nth_smallest
      rw [List.getElem?_eq_getElem hlt]
      rfl
    obtain ⟨x, hx⟩ := Option.isSome_iff_exists.mp hsome
    rw [applyCountsLoop_cons_some inc c rest permuted x hx]
    have hxF : x ∈ inc.filter (fun y => decide (y ∉ permuted)) := by
      unfold nth_smallest at hx
      exact List.getElem?_mem hx
    have hxinc : x ∈ inc := (List.mem_filter.mp hxF).1
    have hxnp : x ∉ permuted := by simpa using (List.mem_filter.mp hxF).2
    apply ih (permuted ++ [x])
    · rw [List.nodup_append]
      exact ⟨hpnd, List.nodup_singleton x,
        fun a ha hax => hxnp (List.mem_singleton.mp hax ▸ ha)⟩
    · intro y hy
      rcases List.mem_append.mp hy with h | h
      · exact hpsub y h
      · rw [List.mem_singleton.mp h]; exact hxinc
    · intro k hk
      have hb := hbound (k + 1) (by simpa using Nat.succ_lt_succ hk)
      simp only [List.getElem_cons_succ] at hb
      rw [List.length_append, List.length_singleton]
      omega

/-- C9 (counterexample to the original claim): at `N = 22` the original
claim's hypotheses hold — `List.range 22` is a non-empty slice of distinct
values and the code `0` is below `22!` — yet `decode_permutation` panics
(returns `none`): its very first loop iteration computes `21.factorial()`
and the `factorial` crate's `expect` fires, because `21!` exceeds the
64-bit `usize`. -/
theorem decode_permutation_panics_below_factorial :
    (List.range 22).Nodup ∧ List.range 22 ≠ [] ∧
    0 < Nat.factorial (List.range 22).length ∧
    decode_permutation 0 (List.range 22) = none :=
  ⟨by decide, by decide, Nat.factorial_pos _, by decide⟩

/-- C9 (amended): for every non-empty duplicate-free reference slice of `N`
distinct values with `N ≤ 21` — so that every `index.factorial()` computed
during decoding fits the 64-bit `usize` (the spec's "20! fits in a u64") —
`decode_permutation` returns successfully (neither the checked factorial nor
the `unwrap` in `nth_smallest` panics) for every code below `N!`; yet for a
code at or beyond `N!` the function can panic instead of reporting a
conversion error — decoding code `1` against the one-element slice `[0]`
(where `1! = 1`) panics. -/
theorem decode_permutation_success_and_panic :
    (∀ (β : Type) [LinearOrder β] (data : List β) (code : Nat),
      data.Nodup → data ≠ [] → data.length ≤ 21 → code < Nat.factorial data.length →
      (decode_permutation code data).isSome) ∧
    decode_permutation 1 ([0] : List Nat) = none := by
  constructor
  · intro β _ data code hnd _ hlen21 hcode
    obtain ⟨rcs, hrcs⟩ := decodeCountsAux_isSome data.length hlen21 code
    unfold decode_permutation
    have hdc : decodeCounts code data.length = some rcs.reverse := by
      unfold decodeCounts
      rw [hrcs]
      rfl
    rw [hdc]
    show (applyCounts rcs.reverse data).isSome
    unfold applyCounts
    rw [List.reverse_reverse]
    have hincnd : (List.insertionSort (· ≤ ·) data).Nodup :=
      (List.perm_insertionSort _ data).nodup_iff.mpr hnd
    have hinclen : (List.insertionSort (· ≤ ·) data).length = data.length :=
      (List.perm_insertionSort _ data).length_eq
    have hsome := applyCountsLoop_isSome _ hincnd rcs []
      List.nodup_nil (by intro x hx; cases hx)
      (by
        intro k hk
        have hle := decodeCountsAux_le data.length code rcs hcode hrcs k hk
        rw [hinclen, List.length_nil]
        omega)
    obtain ⟨v, hv⟩ := Option.isSome_iff_exists.mp hsome
    rw [hv]
    rfl
  · decide

/-- Witness for C9 (amended): decoding code `0 < 1!` against `[0]`
succeeds, while code `1` panics. -/
theorem decode_permutation_success_and_panic_witness :
    (decode_permutation 0 ([0] : List Nat)).isSome ∧
    decode_permutation 1 ([0] : List Nat) = none :=
  ⟨decode_permutation_success_and_panic.1 Nat [0] 0
      (by decide) (by decide) (by decide) (by decide),
    decode_permutation_success_and_panic.2⟩

end NaturalSlice
